import Mathlib

/-!
Verification development for the adaptive explicit Runge-Kutta integrator
in `scipy_ode/rk.py` (class `RungeKutta` with its `step` and `spline`
methods, the free function `rk_step`, and the tableau data of
`RungeKutta23` / `RungeKutta45`).

The numerics are embedded over `ℚ` (exact arithmetic).  Vectors of
dimension `n` are functions `Fin n → ℚ`; numpy's elementwise operations
become pointwise definitions; `np.dot(K[:m].T, a)` becomes a truncating
zip-with-sum over the list of stage rows.  The external collaborators
imported from `scipy_ode.common` / `scipy_ode.solver` (the weighted RMS
norm, the float power `x ** (-1/order)`, the status enum) are not part of
the given source tree and are modelled from the spec as abstract data
bundled with the properties the spec ascribes to them.
-/

namespace ScipyOde

/-- A solution vector of dimension `n` (a numpy array of shape `(n,)`). -/
abbrev Vec (n : ℕ) := Fin n → ℚ

/-- The all-zeros vector, used as an out-of-range default. -/
def zVec {n : ℕ} : Vec n := fun _ => 0

/-- `SAFETY = 0.9` from rk.py. -/
def SAFETY : ℚ := 9 / 10

/-- `MAX_FACTOR = 5` from rk.py: maximum allowed increase in a step size. -/
def MAX_FACTOR : ℚ := 5

/-- `MIN_FACTOR = 0.2` from rk.py: minimum allowed decrease in a step size. -/
def MIN_FACTOR : ℚ := 1 / 5

/-- `np.dot(K[:m].T, a)` where `K` is a list of stage rows and `a` a
coefficient list of length `m`: the linear combination `Σ_j a[j] • K[j]`.
`zipWith` truncates at the shorter list, which matches the slicing
`K[:len(a)]` done by the source. -/
def dotKT {n : ℕ} (K : List (Vec n)) (a : List ℚ) : Vec n :=
  fun i => (List.zipWith (fun k c => c * k i) K a).sum

/-- The stage loop of `rk_step` (rk.py lines 267-270): starting from the
accumulated rows `K`, each pair `(a, c)` drawn from `zip(A, C)` appends the
row `fun(t + c*h, y + dot(K[:s+1].T, a) * h)`. -/
def rkStagesAux {n : ℕ} (fn : ℚ → Vec n → Vec n) (t : ℚ) (y : Vec n) (h : ℚ) :
    List (Vec n) → List (List ℚ × ℚ) → List (Vec n)
  | K, [] => K
  | K, ac :: rest =>
      rkStagesAux fn t y h
        (K ++ [fn (t + ac.2 * h) (fun i => y i + dotKT K ac.1 i * h)]) rest

/-- Result of `rk_step`: the prediction, the new derivative, the error
estimate, and the stage buffer `K` as left by the call (the Python function
mutates the caller-owned array `K`; here it is returned). -/
structure RKStepResult (n : ℕ) where
  y_new : Vec n
  f_new : Vec n
  error : Vec n
  K : List (Vec n)
deriving DecidableEq

/-- Shallow embedding of the free function `rk_step` (rk.py lines 215-278):
`K[0] = f`; the stage loop; `y_new = y + h * dot(K[:-1].T, B)`;
`f_new = fun(t + h, y_new)` stored as the last row of `K`;
`error = dot(K.T, E) * h` over the full buffer. -/
def rk_step {n : ℕ} (fn : ℚ → Vec n → Vec n) (t : ℚ) (y f : Vec n) (h : ℚ)
    (A : List (List ℚ)) (B C E : List ℚ) : RKStepResult n :=
  let K := rkStagesAux fn t y h [f] (A.zip C)
  let y_new : Vec n := fun i => y i + h * dotKT K B i
  let f_new := fn (t + h) y_new
  let Kf := K ++ [f_new]
  { y_new := y_new, f_new := f_new, error := fun i => dotKT Kf E i * h, K := Kf }

/-- Modelled from the spec: the run-status enum provided by the external
lifecycle collaborator `scipy_ode.solver.SolverStatus` (not part of the
given sources).  Spec section 4.2 lists
`{Created, Started, Running, Finished, Failed}`. -/
inductive SolverStatus
  | created
  | started
  | running
  | finished
  | failed
deriving DecidableEq

/-- `RungeKutta.OdeState`: `(t, y, f, ym)` with `ym` optional (absent for
schemes without `M` and on the very first state of a run). -/
structure OdeState (n : ℕ) where
  t : ℚ
  y : Vec n
  f : Vec n
  ym : Option (Vec n) := none
deriving DecidableEq

/-- Out-of-range default state. -/
def dfltState {n : ℕ} : OdeState n := ⟨0, zVec, zVec, none⟩

/-- The per-run configuration of a `RungeKutta` solver: the right-hand
side, boundary, direction sign, tolerances and the Butcher tableau
`(A, B, C, E, M)` — all read-only fields of the Python object.

The last four fields are modelled from the spec, because they embed the
external collaborator `scipy_ode.common.norm` (spec: a weighted RMS
reduction, so it vanishes on the zero vector) and the floating-point power
`error_norm ** (-1/order)` used by the controller (spec: the standard
local-error exponent; for arguments `≥ 1` the power is `≤ 1`).  `pw x`
stands for `x ** (-1/order)` at nonzero `x`; the `x = 0` case (an IEEE
infinity under `np.errstate(divide='ignore')`) is handled separately in
`growFactor`. -/
structure RKConfig (n : ℕ) where
  fn : ℚ → Vec n → Vec n
  t_crit : ℚ
  dir : ℚ
  max_step : ℚ
  rtol : ℚ
  atol : Vec n
  A : List (List ℚ)
  B : List ℚ
  C : List ℚ
  E : List ℚ
  M : Option (List ℚ)
  normFn : Vec n → ℚ
  norm_zero : normFn (fun _ => (0 : ℚ)) = 0
  pw : ℚ → ℚ
  pw_le_one : ∀ x : ℚ, 1 ≤ x → pw x ≤ 1

/-- One trial of the retry loop inside `RungeKutta.step`: the (possibly
clamped) magnitude `h_abs`, the signed step `h`, the trial endpoint
`t_new`, the `rk_step` outputs, the scaled error norm, and the stage
buffer as left by this trial's `rk_step` call. -/
structure Trial (n : ℕ) where
  h_abs : ℚ
  h : ℚ
  t_new : ℚ
  y_new : Vec n
  f_new : Vec n
  errorNorm : ℚ
  K : List (Vec n)
deriving DecidableEq

/-- The shrink factor applied on rejection (rk.py line 141):
`max(MIN_FACTOR, SAFETY * error_norm ** (-1/order))`. -/
def shrinkFactor (pw : ℚ → ℚ) (en : ℚ) : ℚ :=
  max MIN_FACTOR (SAFETY * pw en)

/-- The growth factor applied after acceptance (rk.py lines 146-147):
`min(MAX_FACTOR, max(1, SAFETY * error_norm ** (-1/order)))` computed
under `np.errstate(divide='ignore')`.  When `error_norm = 0` the float
power is `+∞` (the divide warning is suppressed, no exception escapes) and
the min/max pipeline collapses to `MAX_FACTOR`; that IEEE-infinity case is
modelled here by the explicit zero branch. -/
def growFactor (pw : ℚ → ℚ) (en : ℚ) : ℚ :=
  if en = 0 then MAX_FACTOR else min MAX_FACTOR (max 1 (SAFETY * pw en))

/-- The body of one iteration of the retry loop in `RungeKutta.step`
(rk.py lines 128-138), after the clamp has fixed `(h_abs, t_new, h)`:
run `rk_step`, then compute
`scale = atol + maximum(|y|, |y_new|) * rtol` and
`error_norm = norm(error / scale)`. -/
def mkTrialCore {n : ℕ} (cfg : RKConfig n) (t : ℚ) (y f : Vec n)
    (h_abs t_new h : ℚ) : Trial n :=
  let r := rk_step cfg.fn t y f h cfg.A cfg.B cfg.C cfg.E
  let scale : Vec n := fun i => cfg.atol i + max |y i| |r.y_new i| * cfg.rtol
  { h_abs := h_abs, h := h, t_new := t_new, y_new := r.y_new, f_new := r.f_new,
    errorNorm := cfg.normFn (fun i => r.error i / scale i), K := r.K }

/-- One full iteration of the retry loop including the boundary clamp
(rk.py lines 128-138): with `d = |t_crit - t|`, if `h_abs > d` the trial is
clamped to `h_abs = d`, `t_new = t_crit`, `h = h_abs * direction`;
otherwise `h = h_abs * direction` and `t_new = t + h`. -/
def mkTrial {n : ℕ} (cfg : RKConfig n) (t : ℚ) (y f : Vec n)
    (d h_abs0 : ℚ) : Trial n :=
  if d < h_abs0 then
    mkTrialCore cfg t y f d cfg.t_crit (d * cfg.dir)
  else
    mkTrialCore cfg t y f h_abs0 (t + h_abs0 * cfg.dir) (h_abs0 * cfg.dir)

/-- The `while True` retry loop of `RungeKutta.step` (rk.py lines 127-144):
reject a trial whose scaled error norm exceeds 1 and retry with
`h_abs * max(MIN_FACTOR, SAFETY * error_norm ** (-1/order))`.  The Python
loop has no iteration bound (termination relies on floating-point
underflow), so the embedding carries fuel and returns `none` when the fuel
runs out. -/
def stepLoop {n : ℕ} (cfg : RKConfig n) (t : ℚ) (y f : Vec n) (d : ℚ) :
    ℕ → ℚ → Option (Trial n)
  | 0, _ => none
  | fuel + 1, h_abs =>
      let tr := mkTrial cfg t y f d h_abs
      if 1 < tr.errorNorm then
        stepLoop cfg t y f d fuel (tr.h_abs * shrinkFactor cfg.pw tr.errorNorm)
      else
        some tr

/-- The mutable per-run fields of a `RungeKutta` object: the current state,
the stored step size, the run status and the stage scratch buffer `K`. -/
structure RKSolver (n : ℕ) where
  state : OdeState n
  step_size : ℚ
  status : SolverStatus
  K : List (Vec n)
deriving DecidableEq

/-- The post-acceptance tail of `RungeKutta.step` (rk.py lines 146-164)
applied to the accepted trial: grow the step size by
`min(MAX_FACTOR, max(1, SAFETY * error_norm ** (-1/order)))`, clamp it to
`max_step`, compute `ym = y + 0.5 * h * dot(K.T, M)` when `M` is
configured, emit the new state with `f = fun(t_new, y_new)`, keep the
accepted trial's stage buffer, and set the status to
finished / failed / running according to `t_new == t_crit` / `t_new == t`. -/
def acceptStep {n : ℕ} (cfg : RKConfig n) (sol : RKSolver n) (tr : Trial n) :
    RKSolver n :=
  { state := { t := tr.t_new, y := tr.y_new,
               f := cfg.fn tr.t_new tr.y_new,
               ym := cfg.M.map
                 (fun Mc => fun i => sol.state.y i + 1 / 2 * tr.h * dotKT tr.K Mc i) },
    step_size := min (tr.h_abs * growFactor cfg.pw tr.errorNorm) cfg.max_step,
    status := if tr.t_new = cfg.t_crit then SolverStatus.finished
              else if tr.t_new = sol.state.t then SolverStatus.failed
              else SolverStatus.running,
    K := tr.K }

/-- Shallow embedding of `RungeKutta.step` (rk.py lines 109-164).  A `none`
result only means the fuel for the retry loop ran out (the Python loop
would still be iterating); every terminating behaviour of the source is a
`some`. -/
def step {n : ℕ} (cfg : RKConfig n) (sol : RKSolver n) (fuel : ℕ) :
    Option (RKSolver n) :=
  if sol.status ≠ SolverStatus.running ∧ sol.status ≠ SolverStatus.started then
    some sol
  else
    (stepLoop cfg sol.state.t sol.state.y sol.state.f
        |cfg.t_crit - sol.state.t| fuel sol.step_size).map (acceptStep cfg sol)

/-- The cubic Hermite coefficients of one dense-output segment when no
midpoint set is configured (rk.py lines 196-202), highest degree first, in
the local variable `τ = t - t0`:
`slope = (y1-y0)/h`, `tt = (f0+f1-2*slope)/h`,
`c = [tt/h, (slope-f0)/h - tt, f0, y0]`. -/
def cubicCoeffs {n : ℕ} (h : ℚ) (y0 y1 f0 f1 : Vec n) : List (Vec n) :=
  let slope : Vec n := fun i => (y1 i - y0 i) / h
  let tt : Vec n := fun i => (f0 i + f1 i - 2 * slope i) / h
  [fun i => tt i / h, fun i => (slope i - f0 i) / h - tt i, f0, y0]

/-- The quartic coefficients of one dense-output segment when a midpoint
set is configured (rk.py lines 204-209), highest degree first, in the
local variable `τ = t - t0`. -/
def quarticCoeffs {n : ℕ} (h : ℚ) (y0 y1 ym f0 f1 : Vec n) : List (Vec n) :=
  [fun i => (-8 * y0 i - 8 * y1 i + 16 * ym i) / h ^ 4
              + (-2 * f0 i + 2 * f1 i) / h ^ 3,
   fun i => (18 * y0 i + 14 * y1 i - 32 * ym i) / h ^ 3
              + (5 * f0 i - 3 * f1 i) / h ^ 2,
   fun i => (-11 * y0 i - 5 * y1 i + 16 * ym i) / h ^ 2
              + (-4 * f0 i + f1 i) / h,
   f0, y0]

/-- One segment of the piecewise-polynomial dense output handed to
`PPoly(c, t)`: the two breakpoint times and the coefficient column for the
interval between them (highest degree first, local variable `τ = t - t0`). -/
structure SplineSeg (n : ℕ) where
  t0 : ℚ
  t1 : ℚ
  coeffs : List (Vec n)
deriving DecidableEq

/-- Out-of-range default segment. -/
def dfltSeg {n : ℕ} : SplineSeg n := ⟨0, 0, []⟩

/-- Polynomial evaluation, coefficients highest degree first (Horner),
as `PPoly` evaluates a segment at local offset `x = t - t0`. -/
def polyEval {n : ℕ} (c : List (Vec n)) (x : ℚ) : Vec n :=
  c.foldl (fun acc ci => fun i => acc i * x + ci i) (fun _ => 0)

/-- Coefficients (highest degree first) of the derivative of a polynomial
given highest degree first. -/
def polyDeriv {n : ℕ} : List (Vec n) → List (Vec n)
  | [] => []
  | [_] => []
  | c :: c2 :: rest =>
      (fun i => (((c2 :: rest).length : ℚ)) * c i) :: polyDeriv (c2 :: rest)

/-- Shallow embedding of `RungeKutta.spline` (rk.py lines 166-212) for
sequences of at least two states, as the list of per-segment breakpoints
and coefficient columns passed to `PPoly` (the `PPoly` container itself
and the single-state `PointSpline` fallback are external collaborators
from outside rk.py).  `useM` is `self.M is not None`.  Mirrors the source:
`ym` is read from `states[1:]` BEFORE the time-direction check; all
component arrays are reversed when `t[-1] < t[0]`; each consecutive pair
contributes a cubic (no midpoint) or quartic (midpoint) coefficient
column.  A missing midpoint entry on a segment that needs one makes the
Python arithmetic on an object array fail; that failure is `none`. -/
def spline {n : ℕ} (useM : Bool) (states : List (OdeState n)) :
    Option (List (SplineSeg n)) :=
  if states.length ≤ 1 then none
  else
    let ts0 := states.map (fun st => st.t)
    let ys0 := states.map (fun st => st.y)
    let fs0 := states.map (fun st => st.f)
    let yms0 : Option (List (Option (Vec n))) :=
      if useM then some (states.tail.map (fun st => st.ym)) else none
    let rev := ts0.getLast?.getD 0 < ts0.head?.getD 0
    let ts := if rev then ts0.reverse else ts0
    let ys := if rev then ys0.reverse else ys0
    let fs := if rev then fs0.reverse else fs0
    let yms := if rev then yms0.map (fun l => l.reverse) else yms0
    (List.range (ts.length - 1)).mapM (fun k =>
      let h := ts.getD (k + 1) 0 - ts.getD k 0
      let y0 := ys.getD k zVec
      let y1 := ys.getD (k + 1) zVec
      let f0 := fs.getD k zVec
      let f1 := fs.getD (k + 1) zVec
      match yms with
      | none => some ⟨ts.getD k 0, ts.getD (k + 1) 0, cubicCoeffs h y0 y1 f0 f1⟩
      | some yl =>
          (yl.getD k none).map
            (fun w => ⟨ts.getD k 0, ts.getD (k + 1) 0, quarticCoeffs h y0 y1 w f0 f1⟩))

/-- The time-increasing reordering applied inside `spline`: reverse the
sequence exactly when `t[-1] < t[0]`. -/
def oriented {n : ℕ} (states : List (OdeState n)) : List (OdeState n) :=
  if (states.map (fun st => st.t)).getLast?.getD 0
      < (states.map (fun st => st.t)).head?.getD 0 then
    states.reverse
  else states

/-- Bogacki-Shampine tableau data from `RungeKutta23.__init__`. -/
def C23 : List ℚ := [1 / 2, 3 / 4]

/-- Bogacki-Shampine `A` coefficients. -/
def A23 : List (List ℚ) := [[1 / 2], [0, 3 / 4]]

/-- Bogacki-Shampine `B` coefficients. -/
def B23 : List ℚ := [2 / 9, 1 / 3, 4 / 9]

/-- Bogacki-Shampine error coefficients. -/
def E23 : List ℚ := [5 / 72, -1 / 12, -1 / 9, 1 / 8]

/-- `order = 3` for `RungeKutta23`. -/
def order23 : ℕ := 3

/-- Dormand-Prince tableau data from `RungeKutta45.__init__`. -/
def C45 : List ℚ := [1 / 5, 3 / 10, 4 / 5, 8 / 9, 1]

/-- Dormand-Prince `A` coefficients. -/
def A45 : List (List ℚ) :=
  [[1 / 5],
   [3 / 40, 9 / 40],
   [44 / 45, -56 / 15, 32 / 9],
   [19372 / 6561, -25360 / 2187, 64448 / 6561, -212 / 729],
   [9017 / 3168, -355 / 33, 46732 / 5247, 49 / 176, -5103 / 18656]]

/-- Dormand-Prince `B` coefficients. -/
def B45 : List ℚ := [35 / 384, 0, 500 / 1113, 125 / 192, -2187 / 6784, 11 / 84]

/-- Dormand-Prince error coefficients. -/
def E45 : List ℚ :=
  [-71 / 57600, 0, 71 / 16695, -71 / 1920, 17253 / 339200, -22 / 525, 1 / 40]

/-- Dormand-Prince midpoint coefficients `M45`. -/
def M45 : List ℚ :=
  [613 / 3072, 0, 125 / 159, -125 / 1536, 8019 / 54272, -11 / 96, 1 / 16]

/-- `order = 5` for `RungeKutta45`. -/
def order45 : ℕ := 5

/-! ### Concrete instances used to exercise the embedding -/

/-- The zero right-hand side `f(t, y) = 0`. -/
def zeroRHS : ℚ → Vec 1 → Vec 1 := fun _ _ => zVec

/-- A concrete scalar norm for dimension 1 (the RMS norm of a 1-vector). -/
def absNorm : Vec 1 → ℚ := fun v => |v 0|

/-- A concrete solver configuration: Bogacki-Shampine tableau, zero
right-hand side, boundary `t_crit = 2`, forward direction. -/
def cfgZero : RKConfig 1 where
  fn := zeroRHS
  t_crit := 2
  dir := 1
  max_step := 10
  rtol := 1 / 1000
  atol := fun _ => 1
  A := A23
  B := B23
  C := C23
  E := E23
  M := none
  normFn := absNorm
  norm_zero := by simp [absNorm]
  pw := fun _ => 1 / 2
  pw_le_one := by intro x hx; norm_num

/-- `cfgZero` with a midpoint coefficient set configured. -/
def cfgMid : RKConfig 1 :=
  { cfgZero with M := some [1, 1, 1, 1] }

/-- The trial accepted by `cfgZero` from `t = 0`, `y = f = 0`, `h_abs = 1`. -/
def trZero : Trial 1 := ⟨1, 1, 1, zVec, zVec, 0, [zVec, zVec, zVec, zVec]⟩

/-- A freshly started solver at `t = 0`. -/
def solStart : RKSolver 1 := ⟨⟨0, zVec, zVec, none⟩, 1, SolverStatus.started, []⟩

/-- The solver emitted by one `step` of `cfgZero` from `solStart`. -/
def solNext : RKSolver 1 :=
  ⟨⟨1, zVec, zVec, none⟩, 5, SolverStatus.running, [zVec, zVec, zVec, zVec]⟩

/-- The solver emitted by one `step` of `cfgMid` from `solStart`. -/
def solNextMid : RKSolver 1 :=
  ⟨⟨1, zVec, zVec, some zVec⟩, 5, SolverStatus.running, [zVec, zVec, zVec, zVec]⟩

/-- A solver started exactly at the boundary `t0 = t_crit = 2`. -/
def solBound : RKSolver 1 := ⟨⟨2, zVec, zVec, none⟩, 1, SolverStatus.started, []⟩

/-- The solver emitted by one `step` of `cfgZero` from `solBound`. -/
def solBoundFin : RKSolver 1 :=
  ⟨⟨2, zVec, zVec, none⟩, 0, SolverStatus.finished, [zVec, zVec, zVec, zVec]⟩

/-- A solver whose run has already finished. -/
def solDone : RKSolver 1 := ⟨⟨0, zVec, zVec, none⟩, 1, SolverStatus.finished, []⟩

/-- Accepted state at `t = 0` on the line `y = t` (so `f = 1`). -/
def stA : OdeState 1 := ⟨0, zVec, fun _ => 1, none⟩

/-- Accepted state at `t = 1` on the line `y = t`. -/
def stB : OdeState 1 := ⟨1, fun _ => 1, fun _ => 1, none⟩

/-- Midpoint-carrying state at `t = 0` with `ym = 5`. -/
def mp0 : OdeState 1 := ⟨0, zVec, zVec, some (fun _ => 5)⟩

/-- Midpoint-carrying state at `t = 1` with `ym = 1`. -/
def mp1 : OdeState 1 := ⟨1, zVec, zVec, some (fun _ => 1)⟩

/-- Midpoint-carrying state at `t = 2` with `ym = 2`. -/
def mp2 : OdeState 1 := ⟨2, zVec, zVec, some (fun _ => 2)⟩

/-- The single dense-output segment produced by `spline` from
`[stA, stB]` (cubic Hermite on the line `y = t`). -/
def segAB : SplineSeg 1 := ⟨0, 1, [zVec, zVec, fun _ => 1, zVec]⟩

/-! ### Structural lemmas about the stage loop -/

theorem rkStagesAux_length {n : ℕ} (fn : ℚ → Vec n → Vec n) (t : ℚ) (y : Vec n)
    (h : ℚ) : ∀ (l : List (List ℚ × ℚ)) (K : List (Vec n)),
    (rkStagesAux fn t y h K l).length = K.length + l.length := by
  intro l
  induction l with
  | nil => intro K; simp [rkStagesAux]
  | cons ac rest ih =>
      intro K
      simp only [rkStagesAux]
      rw [ih]
      simp only [List.length_append, List.length_cons, List.length_nil]
      omega

theorem rkStagesAux_getElem_lt {n : ℕ} (fn : ℚ → Vec n → Vec n) (t : ℚ)
    (y : Vec n) (h : ℚ) : ∀ (l : List (List ℚ × ℚ)) (K : List (Vec n)) (j : ℕ),
    j < K.length → (rkStagesAux fn t y h K l)[j]? = K[j]? := by
  intro l
  induction l with
  | nil => intro K j _; rfl
  | cons ac rest ih =>
      intro K j hj
      simp only [rkStagesAux]
      rw [ih _ j (by simp; omega), List.getElem?_append, if_pos hj]

theorem rkStagesAux_take {n : ℕ} (fn : ℚ → Vec n → Vec n) (t : ℚ) (y : Vec n)
    (h : ℚ) : ∀ (l : List (List ℚ × ℚ)) (K : List (Vec n)) (j : ℕ),
    j ≤ K.length → (rkStagesAux fn t y h K l).take j = K.take j := by
  intro l
  induction l with
  | nil => intro K j _; rfl
  | cons ac rest ih =>
      intro K j hj
      simp only [rkStagesAux]
      rw [ih _ j (by simp; omega), List.take_append_of_le_length hj]

theorem rkStagesAux_getElem_stage {n : ℕ} (fn : ℚ → Vec n → Vec n) (t : ℚ)
    (y : Vec n) (h : ℚ) : ∀ (l : List (List ℚ × ℚ)) (K : List (Vec n)) (j : ℕ),
    j < l.length →
    (rkStagesAux fn t y h K l)[K.length + j]? =
      some (fn (t + (l.getD j ([], 0)).2 * h)
        (fun i => y i
          + dotKT ((rkStagesAux fn t y h K l).take (K.length + j))
              (l.getD j ([], 0)).1 i * h)) := by
  intro l
  induction l with
  | nil => intro K j hj; simp at hj
  | cons ac rest ih =>
      intro K j hj
      match j with
      | 0 =>
          simp only [rkStagesAux, Nat.add_zero, List.getD_cons_zero]
          rw [rkStagesAux_getElem_lt fn t y h rest _ K.length (by simp),
            List.getElem?_concat_length,
            rkStagesAux_take fn t y h rest _ K.length (by simp),
            List.take_append_of_le_length (Nat.le_refl _), List.take_length]
      | j + 1 =>
          simp only [rkStagesAux, List.getD_cons_succ]
          have hlen : (K ++ [fn (t + ac.2 * h)
              (fun i => y i + dotKT K ac.1 i * h)]).length = K.length + 1 := by
            simp
          have := ih (K ++ [fn (t + ac.2 * h) (fun i => y i + dotKT K ac.1 i * h)])
            j (by simpa using hj)
          rw [hlen] at this
          rw [show K.length + (j + 1) = K.length + 1 + j by omega]
          exact this

theorem zip_getD {α β : Type} (A : List α) (C : List β) (s : ℕ) (da : α)
    (db : β) (h1 : s < A.length) (h2 : s < C.length) :
    (A.zip C).getD s (da, db) = (A.getD s da, C.getD s db) := by
  have hz : (A.zip C)[s]? = some (A.getD s da, C.getD s db) := by
    rw [List.getElem?_zip_eq_some]
    constructor
    · rw [List.getElem?_eq_getElem h1, List.getD_eq_getElem A da h1]
    · rw [List.getElem?_eq_getElem h2, List.getD_eq_getElem C db h2]
  rw [List.getD_eq_getElem?_getD, hz, Option.getD_some]

/-- **C1.** For every call to `rk_step` with a well-formed tableau
`(A, B, C, E)` (stage `s` combines stages `0..s`, so `A[s]` has length
`s+1`, `B` has `n_stages = len(A)+1` entries and `E` one more), state
`(t, y, f)` and signed step `h`, the returned values satisfy the spec's
stage recursion and combination formulas: the buffer has `n_stages + 1`
rows; `K[0] = f`; `K[s+1] = fun(t + C[s]*h, y + h * dot(K[0..s].T, A[s]))`
for each stage index `s`; `y_new = y + h * dot(K[0..n_stages-1].T, B)`;
`f_new = fun(t+h, y_new)` is stored in the last row of `K`; and
`error = h * dot(K.T, E)` over all `n_stages + 1` rows. -/
theorem rk_step_matches_tableau_recursion {n : ℕ}
    (fn : ℚ → Vec n → Vec n) (t : ℚ) (y f : Vec n) (h : ℚ)
    (A : List (List ℚ)) (B C E : List ℚ)
    (hAC : A.length = C.length)
    (hB : B.length = A.length + 1)
    (hE : E.length = B.length + 1)
    (s : ℕ) (hs : s < A.length) (i : Fin n) :
    (rk_step fn t y f h A B C E).K.length = B.length + 1
    ∧ (rk_step fn t y f h A B C E).K[0]? = some f
    ∧ (rk_step fn t y f h A B C E).K[s + 1]? =
        some (fn (t + C.getD s 0 * h)
          (fun j => y j
            + h * dotKT ((rk_step fn t y f h A B C E).K.take (s + 1))
                (A.getD s []) j))
    ∧ (rk_step fn t y f h A B C E).y_new i =
        y i + h * dotKT ((rk_step fn t y f h A B C E).K.take B.length) B i
    ∧ (rk_step fn t y f h A B C E).f_new =
        fn (t + h) (rk_step fn t y f h A B C E).y_new
    ∧ (rk_step fn t y f h A B C E).K.getLast? =
        some (rk_step fn t y f h A B C E).f_new
    ∧ (rk_step fn t y f h A B C E).error i =
        h * dotKT (rk_step fn t y f h A B C E).K E i := by
  have hzip : (A.zip C).length = A.length := by
    rw [List.length_zip, hAC, min_self]
  have hstlen : (rkStagesAux fn t y h [f] (A.zip C)).length = A.length + 1 := by
    rw [rkStagesAux_length, hzip]
    simp [Nat.add_comm]
  have hKdef : (rk_step fn t y f h A B C E).K =
      rkStagesAux fn t y h [f] (A.zip C)
        ++ [fn (t + h)
              (fun j => y j + h * dotKT (rkStagesAux fn t y h [f] (A.zip C)) B j)] :=
    rfl
  have hKtake : ∀ m : ℕ, m ≤ A.length + 1 →
      (rk_step fn t y f h A B C E).K.take m =
        (rkStagesAux fn t y h [f] (A.zip C)).take m := by
    intro m hm
    rw [hKdef, List.take_append_of_le_length (by rw [hstlen]; exact hm)]
  refine ⟨?_, ?_, ?_, ?_, rfl, ?_, ?_⟩
  · rw [hKdef]
    simp [hstlen, hB]
  · rw [hKdef, List.getElem?_append, if_pos (by rw [hstlen]; omega),
      rkStagesAux_getElem_lt fn t y h (A.zip C) [f] 0 (by simp)]
    rfl
  · rw [hKdef, List.getElem?_append, if_pos (by rw [hstlen]; omega),
      show s + 1 = [f].length + s by simp [Nat.add_comm],
      rkStagesAux_getElem_stage fn t y h (A.zip C) [f] s (by rw [hzip]; exact hs)]
    rw [zip_getD A C s [] 0 hs (hAC ▸ hs)]
    have harg : ∀ X : List (Vec n),
        (fun j => y j + dotKT X (A.getD s []) j * h) =
          (fun j => y j + h * dotKT X (A.getD s []) j) := by
      intro X
      funext j
      ring
    rw [harg, List.take_append_of_le_length (by simp [hstlen]; omega)]
  · rw [hKtake B.length (by omega)]
    have : (rkStagesAux fn t y h [f] (A.zip C)).take B.length =
        rkStagesAux fn t y h [f] (A.zip C) := by
      apply List.take_of_length_le
      rw [hstlen, hB]
    rw [this]
    rfl
  · rw [hKdef, List.getLast?_concat]
    rfl
  · exact mul_comm _ _

/-! ### Helper lemmas about trials, factors and the retry loop -/

theorem mkTrial_h_abs_eq {n : ℕ} (cfg : RKConfig n) (t : ℚ) (y f : Vec n)
    (d v : ℚ) :
    (mkTrial cfg t y f d v).h_abs = if d < v then d else v := by
  unfold mkTrial
  split <;> rfl

theorem mkTrial_t_new_eq {n : ℕ} (cfg : RKConfig n) (t : ℚ) (y f : Vec n)
    (d v : ℚ) :
    (mkTrial cfg t y f d v).t_new =
      if d < v then cfg.t_crit else t + v * cfg.dir := by
  unfold mkTrial
  split <;> rfl

theorem mkTrial_h_eq {n : ℕ} (cfg : RKConfig n) (t : ℚ) (y f : Vec n)
    (d v : ℚ) :
    (mkTrial cfg t y f d v).h = (mkTrial cfg t y f d v).h_abs * cfg.dir := by
  unfold mkTrial
  split <;> rfl

theorem mkTrial_K_eq {n : ℕ} (cfg : RKConfig n) (t : ℚ) (y f : Vec n)
    (d v : ℚ) :
    (mkTrial cfg t y f d v).K =
      (rk_step cfg.fn t y f (mkTrial cfg t y f d v).h
        cfg.A cfg.B cfg.C cfg.E).K := by
  unfold mkTrial
  split <;> rfl

theorem mkTrial_y_new_eq {n : ℕ} (cfg : RKConfig n) (t : ℚ) (y f : Vec n)
    (d v : ℚ) :
    (mkTrial cfg t y f d v).y_new =
      (rk_step cfg.fn t y f (mkTrial cfg t y f d v).h
        cfg.A cfg.B cfg.C cfg.E).y_new := by
  unfold mkTrial
  split <;> rfl

theorem mkTrial_errorNorm_eq {n : ℕ} (cfg : RKConfig n) (t : ℚ) (y f : Vec n)
    (d v : ℚ) :
    (mkTrial cfg t y f d v).errorNorm =
      cfg.normFn (fun i =>
        (rk_step cfg.fn t y f (mkTrial cfg t y f d v).h
            cfg.A cfg.B cfg.C cfg.E).error i
          / (cfg.atol i
              + max |y i| |(mkTrial cfg t y f d v).y_new i| * cfg.rtol)) := by
  unfold mkTrial
  split <;> rfl

theorem min_factor_le_shrinkFactor (pw : ℚ → ℚ) (en : ℚ) :
    MIN_FACTOR ≤ shrinkFactor pw en :=
  le_max_left _ _

theorem shrinkFactor_nonneg (pw : ℚ → ℚ) (en : ℚ) :
    0 ≤ shrinkFactor pw en :=
  le_trans (by norm_num [MIN_FACTOR]) (min_factor_le_shrinkFactor pw en)

theorem shrinkFactor_le_one {pw : ℚ → ℚ} {en : ℚ}
    (hpw : pw en ≤ 1) : shrinkFactor pw en ≤ 1 := by
  unfold shrinkFactor
  apply max_le
  · norm_num [MIN_FACTOR]
  · calc SAFETY * pw en ≤ SAFETY * 1 := by
            apply mul_le_mul_of_nonneg_left hpw
            norm_num [SAFETY]
      _ ≤ 1 := by norm_num [SAFETY]

theorem one_le_growFactor (pw : ℚ → ℚ) (en : ℚ) :
    1 ≤ growFactor pw en := by
  unfold growFactor
  split
  · norm_num [MAX_FACTOR]
  · exact le_min (by norm_num [MAX_FACTOR]) (le_max_left _ _)

theorem growFactor_le_max (pw : ℚ → ℚ) (en : ℚ) :
    growFactor pw en ≤ MAX_FACTOR := by
  unfold growFactor
  split
  · exact le_refl _
  · exact min_le_left _ _

theorem growFactor_zero (pw : ℚ → ℚ) : growFactor pw 0 = MAX_FACTOR := by
  unfold growFactor
  rw [if_pos rfl]

/-- Every trial emitted by the retry loop was accepted (its scaled error
norm is at most 1) and is the trial built by `mkTrial` from some magnitude
`v`; when the loop started from a nonnegative magnitude and a nonnegative
remaining distance, `v` lies in `[0, h0]`. -/
theorem stepLoop_charac {n : ℕ} (cfg : RKConfig n) (t : ℚ) (y f : Vec n)
    (d : ℚ) : ∀ (fuel : ℕ) (h0 : ℚ) (tr : Trial n),
    stepLoop cfg t y f d fuel h0 = some tr →
    tr.errorNorm ≤ 1
    ∧ ∃ v : ℚ, tr = mkTrial cfg t y f d v
        ∧ (0 ≤ h0 → 0 ≤ d → 0 ≤ v ∧ v ≤ h0) := by
  intro fuel
  induction fuel with
  | zero => intro h0 tr hacc; exact absurd hacc (by simp [stepLoop])
  | succ m ih =>
      intro h0 tr hacc
      rw [stepLoop] at hacc
      by_cases hgt : 1 < (mkTrial cfg t y f d h0).errorNorm
      · rw [if_pos hgt] at hacc
        obtain ⟨hle, v, htr, hbd⟩ := ih _ tr hacc
        refine ⟨hle, v, htr, ?_⟩
        intro hh0 hd
        have hma : (mkTrial cfg t y f d h0).h_abs =
            if d < h0 then d else h0 := mkTrial_h_abs_eq cfg t y f d h0
        have hma0 : 0 ≤ (mkTrial cfg t y f d h0).h_abs := by
          rw [hma]; split <;> assumption
        have hmale : (mkTrial cfg t y f d h0).h_abs ≤ h0 := by
          rw [hma]; split
          · linarith
          · exact le_refl _
        have hpw : cfg.pw (mkTrial cfg t y f d h0).errorNorm ≤ 1 :=
          cfg.pw_le_one _ (le_of_lt hgt)
        have hsf1 : shrinkFactor cfg.pw (mkTrial cfg t y f d h0).errorNorm ≤ 1 :=
          shrinkFactor_le_one hpw
        have hsf0 : 0 ≤ shrinkFactor cfg.pw (mkTrial cfg t y f d h0).errorNorm :=
          shrinkFactor_nonneg _ _
        have h0' : 0 ≤ (mkTrial cfg t y f d h0).h_abs *
            shrinkFactor cfg.pw (mkTrial cfg t y f d h0).errorNorm :=
          mul_nonneg hma0 hsf0
        obtain ⟨hv0, hvle⟩ := hbd h0' hd
        refine ⟨hv0, le_trans hvle ?_⟩
        calc (mkTrial cfg t y f d h0).h_abs *
              shrinkFactor cfg.pw (mkTrial cfg t y f d h0).errorNorm
            ≤ (mkTrial cfg t y f d h0).h_abs * 1 :=
              mul_le_mul_of_nonneg_left hsf1 hma0
          _ = (mkTrial cfg t y f d h0).h_abs := mul_one _
          _ ≤ h0 := hmale
      · rw [if_neg hgt] at hacc
        obtain rfl : (mkTrial cfg t y f d h0) = tr := by
          exact Option.some.inj hacc
        refine ⟨le_of_not_lt hgt, h0, rfl, ?_⟩
        intro hh0 hd
        exact ⟨hh0, le_refl h0⟩

/-- When the solver is active (status `started` or `running`), `step`
takes the retry-loop branch. -/
theorem step_eq_of_active {n : ℕ} (cfg : RKConfig n) (sol : RKSolver n)
    (fuel : ℕ)
    (hst : sol.status = SolverStatus.started ∨ sol.status = SolverStatus.running) :
    step cfg sol fuel =
      (stepLoop cfg sol.state.t sol.state.y sol.state.f
          |cfg.t_crit - sol.state.t| fuel sol.step_size).map (acceptStep cfg sol) := by
  unfold step
  rw [if_neg]
  rcases hst with h | h <;> simp [h]


/-! ### Claim theorems for the adaptive stepper -/

/-- **C2.** For every `step()` call that accepts a step (exits the retry
loop and emits a trial), the weighted scaled error norm
`norm(error / (atol + rtol * max(|y|, |y_new|)))` computed for the
accepted trial is `≤ 1`; a trial whose norm exceeds 1 is rejected and the
loop retries with the shrunk magnitude instead of emitting it (third
conjunct: the loop's defining recurrence). -/
theorem accepted_step_error_norm_le_one {n : ℕ} (cfg : RKConfig n)
    (t : ℚ) (y f : Vec n) (d h0 : ℚ) (fuel : ℕ) (tr : Trial n)
    (hacc : stepLoop cfg t y f d fuel h0 = some tr) :
    tr.errorNorm ≤ 1
    ∧ tr.errorNorm =
        cfg.normFn (fun i =>
          (rk_step cfg.fn t y f tr.h cfg.A cfg.B cfg.C cfg.E).error i
            / (cfg.atol i + max |y i| |tr.y_new i| * cfg.rtol))
    ∧ stepLoop cfg t y f d (fuel + 1) h0 =
        (if 1 < (mkTrial cfg t y f d h0).errorNorm then
          stepLoop cfg t y f d fuel
            ((mkTrial cfg t y f d h0).h_abs
              * shrinkFactor cfg.pw (mkTrial cfg t y f d h0).errorNorm)
        else some (mkTrial cfg t y f d h0)) := by
  obtain ⟨hle, v, htr, -⟩ := stepLoop_charac cfg t y f d fuel h0 tr hacc
  refine ⟨hle, ?_, rfl⟩
  rw [htr, mkTrial_errorNorm_eq, mkTrial_y_new_eq]

/-- Witness for C2: the concrete configuration `cfgZero` accepts the trial
`trZero` on its first iteration, and the theorem's conclusions hold for
it. -/
theorem accepted_step_error_norm_le_one_witness :
    stepLoop cfgZero 0 zVec zVec 2 1 1 = some trZero
    ∧ (trZero.errorNorm ≤ 1
        ∧ trZero.errorNorm =
            cfgZero.normFn (fun i =>
              (rk_step cfgZero.fn 0 zVec zVec trZero.h
                  cfgZero.A cfgZero.B cfgZero.C cfgZero.E).error i
                / (cfgZero.atol i + max |zVec i| |trZero.y_new i| * cfgZero.rtol))
        ∧ stepLoop cfgZero 0 zVec zVec 2 (1 + 1) 1 =
            (if 1 < (mkTrial cfgZero 0 zVec zVec 2 1).errorNorm then
              stepLoop cfgZero 0 zVec zVec 2 1
                ((mkTrial cfgZero 0 zVec zVec 2 1).h_abs
                  * shrinkFactor cfgZero.pw (mkTrial cfgZero 0 zVec zVec 2 1).errorNorm)
            else some (mkTrial cfgZero 0 zVec zVec 2 1))) := by
  have hacc : stepLoop cfgZero 0 zVec zVec 2 1 1 = some trZero := by
    norm_num [stepLoop, mkTrial, mkTrialCore, rk_step, rkStagesAux, dotKT,
      cfgZero, zeroRHS, absNorm, A23, B23, C23, E23, zVec, trZero, funext_iff,
      Fin.forall_fin_one]
  exact ⟨hacc, accepted_step_error_norm_le_one cfgZero 0 zVec zVec 2 1 1 trZero hacc⟩

/-- **C5.** The growth formula never shrinks the step (its factor is at
least 1); a single rejection never shrinks the trial magnitude below
`previous * MIN_FACTOR`; and the step size stored after an accepted
`step()` never exceeds `min(max_step, previous_h * MAX_FACTOR)`, with
`MAX_FACTOR = 5` and `MIN_FACTOR = 0.2`. -/
theorem step_size_growth_shrink_bounds {n : ℕ} (cfg : RKConfig n)
    (sol : RKSolver n) (fuel : ℕ) (s' : RKSolver n) (en hq : ℚ)
    (hst : sol.status = SolverStatus.started ∨ sol.status = SolverStatus.running)
    (hh0 : 0 ≤ sol.step_size)
    (hq0 : 0 ≤ hq)
    (hs : step cfg sol fuel = some s') :
    1 ≤ growFactor cfg.pw en
    ∧ hq * MIN_FACTOR ≤ hq * shrinkFactor cfg.pw en
    ∧ s'.step_size ≤ min cfg.max_step (sol.step_size * MAX_FACTOR) := by
  refine ⟨one_le_growFactor cfg.pw en,
    mul_le_mul_of_nonneg_left (min_factor_le_shrinkFactor cfg.pw en) hq0, ?_⟩
  rw [step_eq_of_active cfg sol fuel hst] at hs
  rw [Option.map_eq_some'] at hs
  obtain ⟨tr, hloop, hrec⟩ := hs
  obtain ⟨-, v, htr, hbd⟩ := stepLoop_charac cfg sol.state.t sol.state.y
    sol.state.f _ fuel sol.step_size tr hloop
  obtain ⟨hv0, hvle⟩ := hbd hh0 (abs_nonneg _)
  have hta : 0 ≤ tr.h_abs ∧ tr.h_abs ≤ sol.step_size := by
    rw [htr, mkTrial_h_abs_eq]
    constructor
    · split
      · exact abs_nonneg _
      · exact hv0
    · split
      · calc |cfg.t_crit - sol.state.t| ≤ v := by linarith
          _ ≤ sol.step_size := hvle
      · exact le_trans hvle (le_refl _)
  have hs' : s'.step_size =
      min (tr.h_abs * growFactor cfg.pw tr.errorNorm) cfg.max_step := by
    rw [← hrec]; rfl
  rw [hs']
  apply le_min
  · exact min_le_right _ _
  · refine le_trans (min_le_left _ _) ?_
    calc tr.h_abs * growFactor cfg.pw tr.errorNorm
        ≤ sol.step_size * MAX_FACTOR :=
          mul_le_mul hta.2 (growFactor_le_max cfg.pw tr.errorNorm)
            (le_trans zero_le_one (one_le_growFactor cfg.pw tr.errorNorm)) hh0
    _ ≤ sol.step_size * MAX_FACTOR := le_refl _

/-- Witness for C5: concrete accepted step of `cfgZero` from `solStart`. -/
theorem step_size_growth_shrink_bounds_witness :
    (solStart.status = SolverStatus.started ∨ solStart.status = SolverStatus.running)
    ∧ (0 : ℚ) ≤ solStart.step_size
    ∧ (0 : ℚ) ≤ 3
    ∧ step cfgZero solStart 1 = some solNext
    ∧ (1 ≤ growFactor cfgZero.pw 7
        ∧ (3 : ℚ) * MIN_FACTOR ≤ 3 * shrinkFactor cfgZero.pw 7
        ∧ solNext.step_size ≤ min cfgZero.max_step (solStart.step_size * MAX_FACTOR)) := by
  have h1 : solStart.status = SolverStatus.started ∨
      solStart.status = SolverStatus.running := Or.inl rfl
  have h2 : (0 : ℚ) ≤ solStart.step_size := by norm_num [solStart]
  have h3 : (0 : ℚ) ≤ 3 := by norm_num
  have h4 : step cfgZero solStart 1 = some solNext := by
    norm_num [step, acceptStep, stepLoop, mkTrial, mkTrialCore, rk_step,
      rkStagesAux, dotKT, growFactor, cfgZero, zeroRHS, absNorm, A23, B23, C23,
      E23, zVec, solStart, solNext, funext_iff, Fin.forall_fin_one, MAX_FACTOR]
  exact ⟨h1, h2, h3, h4,
    step_size_growth_shrink_bounds cfgZero solStart 1 solNext 7 3 h1 h2 h3 h4⟩

/-- **C6.** When the error norm of the accepted trial is exactly 0, the
post-acceptance growth computation raises nothing (the embedding of
`step` still returns a result; the IEEE division-by-zero that produces the
infinite growth exponent is suppressed inside `growFactor`) and the step
size grows by exactly `MAX_FACTOR` before the `max_step` clamp. -/
theorem zero_error_norm_grows_max_factor {n : ℕ} (cfg : RKConfig n)
    (sol : RKSolver n) (fuel : ℕ) (tr : Trial n)
    (hst : sol.status = SolverStatus.started ∨ sol.status = SolverStatus.running)
    (hloop : stepLoop cfg sol.state.t sol.state.y sol.state.f
        |cfg.t_crit - sol.state.t| fuel sol.step_size = some tr)
    (hen : tr.errorNorm = 0) :
    growFactor cfg.pw 0 = MAX_FACTOR
    ∧ (step cfg sol fuel).map (fun s => s.step_size) =
        some (min (tr.h_abs * MAX_FACTOR) cfg.max_step) := by
  refine ⟨growFactor_zero cfg.pw, ?_⟩
  rw [step_eq_of_active cfg sol fuel hst, hloop]
  simp only [Option.map_some']
  have : (acceptStep cfg sol tr).step_size =
      min (tr.h_abs * growFactor cfg.pw tr.errorNorm) cfg.max_step := rfl
  rw [this, hen, growFactor_zero]

/-- Witness for C6: the trial accepted by `cfgZero` from `solStart` has
error norm exactly 0, and the emitted step size is
`min(1 * MAX_FACTOR, max_step)`. -/
theorem zero_error_norm_grows_max_factor_witness :
    (solStart.status = SolverStatus.started ∨ solStart.status = SolverStatus.running)
    ∧ stepLoop cfgZero solStart.state.t solStart.state.y solStart.state.f
        |cfgZero.t_crit - solStart.state.t| 1 solStart.step_size = some trZero
    ∧ trZero.errorNorm = 0
    ∧ (growFactor cfgZero.pw 0 = MAX_FACTOR
        ∧ (step cfgZero solStart 1).map (fun s => s.step_size) =
            some (min (trZero.h_abs * MAX_FACTOR) cfgZero.max_step)) := by
  have h1 : solStart.status = SolverStatus.started ∨
      solStart.status = SolverStatus.running := Or.inl rfl
  have h2 : stepLoop cfgZero solStart.state.t solStart.state.y solStart.state.f
      |cfgZero.t_crit - solStart.state.t| 1 solStart.step_size = some trZero := by
    norm_num [stepLoop, mkTrial, mkTrialCore, rk_step, rkStagesAux, dotKT,
      cfgZero, zeroRHS, absNorm, A23, B23, C23, E23, zVec, trZero, solStart,
      funext_iff, Fin.forall_fin_one]
  have h3 : trZero.errorNorm = 0 := rfl
  exact ⟨h1, h2, h3,
    zero_error_norm_grows_max_factor cfgZero solStart 1 trZero h1 h2 h3⟩

/-- **C7.** After every `step()` call that runs (status `started` or
`running`), the resulting status is exactly: `finished` if
`t_new = t_crit`, otherwise `failed` if `t_new = t`, otherwise `running`;
and a run whose current `t` already equals the boundary reports
`finished` without advancing `t`. -/
theorem step_status_transition {n : ℕ} (cfg : RKConfig n) (sol : RKSolver n)
    (fuel : ℕ) (s' : RKSolver n)
    (hst : sol.status = SolverStatus.started ∨ sol.status = SolverStatus.running)
    (hs : step cfg sol fuel = some s') :
    s'.status = (if s'.state.t = cfg.t_crit then SolverStatus.finished
                 else if s'.state.t = sol.state.t then SolverStatus.failed
                 else SolverStatus.running)
    ∧ (sol.state.t = cfg.t_crit → 0 ≤ sol.step_size →
        s'.status = SolverStatus.finished ∧ s'.state.t = sol.state.t) := by
  rw [step_eq_of_active cfg sol fuel hst, Option.map_eq_some'] at hs
  obtain ⟨tr, hloop, hrec⟩ := hs
  subst hrec
  constructor
  · rfl
  · intro htb hh0
    obtain ⟨-, v, htr, hbd⟩ := stepLoop_charac cfg sol.state.t sol.state.y
      sol.state.f _ fuel sol.step_size tr hloop
    obtain ⟨hv0, -⟩ := hbd hh0 (abs_nonneg _)
    have hd0 : |cfg.t_crit - sol.state.t| = 0 := by
      rw [htb, sub_self, abs_zero]
    have htn : tr.t_new = sol.state.t := by
      rw [htr, mkTrial_t_new_eq, hd0]
      split
      · exact htb.symm
      · have hv : v = 0 := le_antisymm (by linarith) hv0
        rw [hv]
        ring
    have hfin : (acceptStep cfg sol tr).status = SolverStatus.finished := by
      have : (acceptStep cfg sol tr).status =
          (if tr.t_new = cfg.t_crit then SolverStatus.finished
           else if tr.t_new = sol.state.t then SolverStatus.failed
           else SolverStatus.running) := rfl
      rw [this, htn, ← htb, if_pos rfl]
    exact ⟨hfin, htn⟩

/-- Witness for C7: starting `cfgZero` at the boundary `t0 = t_crit = 2`
finishes on the first call without advancing `t`. -/
theorem step_status_transition_witness :
    (solBound.status = SolverStatus.started ∨ solBound.status = SolverStatus.running)
    ∧ step cfgZero solBound 1 = some solBoundFin
    ∧ (solBoundFin.status =
        (if solBoundFin.state.t = cfgZero.t_crit then SolverStatus.finished
         else if solBoundFin.state.t = solBound.state.t then SolverStatus.failed
         else SolverStatus.running)
      ∧ (solBound.state.t = cfgZero.t_crit → 0 ≤ solBound.step_size →
          solBoundFin.status = SolverStatus.finished
          ∧ solBoundFin.state.t = solBound.state.t)) := by
  have h1 : solBound.status = SolverStatus.started ∨
      solBound.status = SolverStatus.running := Or.inl rfl
  have h2 : step cfgZero solBound 1 = some solBoundFin := by
    norm_num [step, acceptStep, stepLoop, mkTrial, mkTrialCore, rk_step,
      rkStagesAux, dotKT, growFactor, cfgZero, zeroRHS, absNorm, A23, B23, C23,
      E23, zVec, solBound, solBoundFin, funext_iff, Fin.forall_fin_one,
      MAX_FACTOR]
  exact ⟨h1, h2, step_status_transition cfgZero solBound 1 solBoundFin h1 h2⟩

/-- **C8.** In each iteration of the `step()` trial loop, with
`d = |t_crit - t|`: if the trial magnitude exceeds `d` the trial is
clamped so that `t_new` is the boundary exactly and the magnitude becomes
`d`; otherwise (including exact equality `h_abs = d`) no clamping occurs
and `t_new = t + h_abs * direction`; in both cases the signed step is the
(possibly clamped) magnitude times the direction. -/
theorem trial_boundary_clamp {n : ℕ} (cfg : RKConfig n) (t : ℚ)
    (y f : Vec n) (h_abs : ℚ) :
    (mkTrial cfg t y f |cfg.t_crit - t| h_abs).t_new =
        (if |cfg.t_crit - t| < h_abs then cfg.t_crit else t + h_abs * cfg.dir)
    ∧ (mkTrial cfg t y f |cfg.t_crit - t| h_abs).h_abs =
        (if |cfg.t_crit - t| < h_abs then |cfg.t_crit - t| else h_abs)
    ∧ (mkTrial cfg t y f |cfg.t_crit - t| h_abs).h =
        (mkTrial cfg t y f |cfg.t_crit - t| h_abs).h_abs * cfg.dir :=
  ⟨mkTrial_t_new_eq cfg t y f _ h_abs, mkTrial_h_abs_eq cfg t y f _ h_abs,
    mkTrial_h_eq cfg t y f _ h_abs⟩

/-- **C9.** If `step()` is called while the status is neither `started`
nor `running`, it is a no-op: the entire solver record — state
`(t, y, f, ym)`, stored step size, status and stage buffer `K` — is
returned unchanged; since this holds for every configuration (in
particular every right-hand side `fn`), the right-hand side is not
consulted. -/
theorem step_noop_when_not_active {n : ℕ} (cfg : RKConfig n)
    (sol : RKSolver n) (fuel : ℕ)
    (h1 : sol.status ≠ SolverStatus.running)
    (h2 : sol.status ≠ SolverStatus.started) :
    step cfg sol fuel = some sol := by
  unfold step
  rw [if_pos ⟨h1, h2⟩]

/-- Witness for C9: a finished solver is returned unchanged. -/
theorem step_noop_when_not_active_witness :
    solDone.status ≠ SolverStatus.running
    ∧ solDone.status ≠ SolverStatus.started
    ∧ step cfgZero solDone 0 = some solDone := by
  have h1 : solDone.status ≠ SolverStatus.running := by
    simp [solDone]
  have h2 : solDone.status ≠ SolverStatus.started := by
    simp [solDone]
  exact ⟨h1, h2, step_noop_when_not_active cfgZero solDone 0 h1 h2⟩

/-- **C10.** For every accepted `step()` call with a midpoint coefficient
set `M` configured, the emitted state's midpoint value is
`y + 0.5 * h * dot(K.T, M)` where `h` is the accepted signed step and `K`
is the stage buffer exactly as left by the accepted trial's `rk_step`
call (second conjunct); the loop rebuilds every row of `K` on each trial,
so rejected trials leave no residue in the emitted `ym`. -/
theorem midpoint_from_accepted_stage_buffer {n : ℕ} (cfg : RKConfig n)
    (sol : RKSolver n) (fuel : ℕ) (tr : Trial n) (s' : RKSolver n)
    (Mc : List ℚ) (i : Fin n)
    (hst : sol.status = SolverStatus.started ∨ sol.status = SolverStatus.running)
    (hM : cfg.M = some Mc)
    (hloop : stepLoop cfg sol.state.t sol.state.y sol.state.f
        |cfg.t_crit - sol.state.t| fuel sol.step_size = some tr)
    (hs : step cfg sol fuel = some s') :
    s'.state.ym.map (fun v => v i) =
        some (sol.state.y i + 1 / 2 * tr.h * dotKT tr.K Mc i)
    ∧ tr.K = (rk_step cfg.fn sol.state.t sol.state.y sol.state.f tr.h
        cfg.A cfg.B cfg.C cfg.E).K := by
  rw [step_eq_of_active cfg sol fuel hst, hloop, Option.map_some'] at hs
  obtain rfl : acceptStep cfg sol tr = s' := Option.some.inj hs
  constructor
  · have : (acceptStep cfg sol tr).state.ym =
        cfg.M.map (fun Mc => fun j =>
          sol.state.y j + 1 / 2 * tr.h * dotKT tr.K Mc j) := rfl
    rw [this, hM, Option.map_some', Option.map_some']
  · obtain ⟨-, v, htr, -⟩ := stepLoop_charac cfg sol.state.t sol.state.y
      sol.state.f _ fuel sol.step_size tr hloop
    rw [htr, ← mkTrial_K_eq]

/-- Witness for C10: one accepted step of `cfgMid` (midpoint coefficients
`[1,1,1,1]`) from `solStart`. -/
theorem midpoint_from_accepted_stage_buffer_witness :
    (solStart.status = SolverStatus.started ∨ solStart.status = SolverStatus.running)
    ∧ cfgMid.M = some [1, 1, 1, 1]
    ∧ stepLoop cfgMid solStart.state.t solStart.state.y solStart.state.f
        |cfgMid.t_crit - solStart.state.t| 1 solStart.step_size = some trZero
    ∧ step cfgMid solStart 1 = some solNextMid
    ∧ (solNextMid.state.ym.map (fun v => v 0) =
          some (solStart.state.y 0 + 1 / 2 * trZero.h * dotKT trZero.K [1, 1, 1, 1] 0)
        ∧ trZero.K = (rk_step cfgMid.fn solStart.state.t solStart.state.y
            solStart.state.f trZero.h cfgMid.A cfgMid.B cfgMid.C cfgMid.E).K) := by
  have h1 : solStart.status = SolverStatus.started ∨
      solStart.status = SolverStatus.running := Or.inl rfl
  have h2 : cfgMid.M = some [1, 1, 1, 1] := rfl
  have h3 : stepLoop cfgMid solStart.state.t solStart.state.y solStart.state.f
      |cfgMid.t_crit - solStart.state.t| 1 solStart.step_size = some trZero := by
    norm_num [stepLoop, mkTrial, mkTrialCore, rk_step, rkStagesAux, dotKT,
      cfgMid, cfgZero, zeroRHS, absNorm, A23, B23, C23, E23, zVec, trZero,
      solStart, funext_iff, Fin.forall_fin_one]
  have h4 : step cfgMid solStart 1 = some solNextMid := by
    norm_num [step, acceptStep, stepLoop, mkTrial, mkTrialCore, rk_step,
      rkStagesAux, dotKT, growFactor, cfgMid, cfgZero, zeroRHS, absNorm, A23,
      B23, C23, E23, zVec, solStart, solNextMid, funext_iff,
      Fin.forall_fin_one, MAX_FACTOR]
  exact ⟨h1, h2, h3, h4,
    midpoint_from_accepted_stage_buffer cfgMid solStart 1 trZero solNextMid
      [1, 1, 1, 1] 0 h1 h2 h3 h4⟩


/-! ### Helper lemmas for the dense-output builder -/

theorem mapM_option_getElem {α β : Type} (g : α → Option β) :
    ∀ (l : List α) (out : List β), l.mapM g = some out →
    out.length = l.length ∧ ∀ k (hk : k < l.length), out[k]? = g l[k] := by
  intro l
  induction l with
  | nil =>
      intro out hout
      simp only [List.mapM_nil, pure, Option.some.injEq] at hout
      subst hout
      exact ⟨rfl, fun k hk => absurd hk (by simp)⟩
  | cons a rest ih =>
      intro out hout
      rw [List.mapM_cons] at hout
      simp only [bind, Option.bind_eq_some, pure, Option.some.injEq] at hout
      obtain ⟨b, hb, bs, hbs, rfl⟩ := hout
      obtain ⟨hlen, hget⟩ := ih bs hbs
      refine ⟨by simp [hlen], ?_⟩
      intro k hk
      match k with
      | 0 => simpa using hb.symm
      | k + 1 =>
          simp only [List.getElem?_cons_succ, List.getElem_cons_succ]
          exact hget k (by simpa using hk)

theorem map_t_getD {n : ℕ} (l : List (OdeState n)) (k : ℕ) (hk : k < l.length) :
    (l.map (fun st => st.t)).getD k 0 = (l.getD k dfltState).t := by
  rw [List.getD_eq_getElem _ _ (by simpa using hk),
    List.getD_eq_getElem _ _ hk, List.getElem_map]

theorem map_y_getD {n : ℕ} (l : List (OdeState n)) (k : ℕ) (hk : k < l.length) :
    (l.map (fun st => st.y)).getD k zVec = (l.getD k dfltState).y := by
  rw [List.getD_eq_getElem _ _ (by simpa using hk),
    List.getD_eq_getElem _ _ hk, List.getElem_map]

theorem map_f_getD {n : ℕ} (l : List (OdeState n)) (k : ℕ) (hk : k < l.length) :
    (l.map (fun st => st.f)).getD k zVec = (l.getD k dfltState).f := by
  rw [List.getD_eq_getElem _ _ (by simpa using hk),
    List.getD_eq_getElem _ _ hk, List.getElem_map]

theorem pairwise_getD_ne (L : List ℚ)
    (hP : L.Pairwise (fun a b => a < b) ∨ L.Pairwise (fun a b => b < a))
    (k : ℕ) (hk : k + 1 < L.length) : L.getD k 0 ≠ L.getD (k + 1) 0 := by
  rw [List.getD_eq_getElem _ _ (by omega), List.getD_eq_getElem _ _ hk]
  rcases hP with hP | hP
  · exact ne_of_lt ((List.pairwise_iff_getElem.mp hP) k (k + 1) (by omega) hk
      (by omega))
  · exact ne_of_gt ((List.pairwise_iff_getElem.mp hP) k (k + 1) (by omega) hk
      (by omega))

/-- Each segment produced by `spline` spans two adjacent states of the
time-ordered sequence and carries exactly the cubic (no midpoint) or
quartic (some midpoint vector) coefficient column for that pair. -/
theorem spline_seg_charac {n : ℕ} (useM : Bool) (states : List (OdeState n))
    (segs : List (SplineSeg n)) (k : ℕ)
    (hsegs : spline useM states = some segs)
    (hk : k + 1 < states.length) :
    segs.length = states.length - 1
    ∧ (segs.getD k dfltSeg).t0 = ((oriented states).getD k dfltState).t
    ∧ (segs.getD k dfltSeg).t1 = ((oriented states).getD (k + 1) dfltState).t
    ∧ ((segs.getD k dfltSeg).coeffs =
          cubicCoeffs
            (((oriented states).getD (k + 1) dfltState).t
              - ((oriented states).getD k dfltState).t)
            (((oriented states).getD k dfltState).y)
            (((oriented states).getD (k + 1) dfltState).y)
            (((oriented states).getD k dfltState).f)
            (((oriented states).getD (k + 1) dfltState).f)
        ∨ ∃ w : Vec n, (segs.getD k dfltSeg).coeffs =
            quarticCoeffs
              (((oriented states).getD (k + 1) dfltState).t
                - ((oriented states).getD k dfltState).t)
              (((oriented states).getD k dfltState).y)
              (((oriented states).getD (k + 1) dfltState).y)
              w
              (((oriented states).getD k dfltState).f)
              (((oriented states).getD (k + 1) dfltState).f)) := by
  have hlen2 : ¬ states.length ≤ 1 := by omega
  rw [spline] at hsegs
  rw [if_neg hlen2] at hsegs
  simp only [] at hsegs
  have hts : (if (states.map (fun st => st.t)).getLast?.getD 0
        < (states.map (fun st => st.t)).head?.getD 0
      then (states.map (fun st => st.t)).reverse
      else states.map (fun st => st.t)) =
      (oriented states).map (fun st => st.t) := by
    rw [oriented]
    split
    · exact (List.map_reverse _ _).symm
    · rfl
  have hys : (if (states.map (fun st => st.t)).getLast?.getD 0
        < (states.map (fun st => st.t)).head?.getD 0
      then (states.map (fun st => st.y)).reverse
      else states.map (fun st => st.y)) =
      (oriented states).map (fun st => st.y) := by
    rw [oriented]
    split
    · exact (List.map_reverse _ _).symm
    · rfl
  have hfs : (if (states.map (fun st => st.t)).getLast?.getD 0
        < (states.map (fun st => st.t)).head?.getD 0
      then (states.map (fun st => st.f)).reverse
      else states.map (fun st => st.f)) =
      (oriented states).map (fun st => st.f) := by
    rw [oriented]
    split
    · exact (List.map_reverse _ _).symm
    · rfl
  have horlen : (oriented states).length = states.length := by
    rw [oriented]
    split <;> simp
  obtain ⟨hl, hg⟩ := mapM_option_getElem _ _ segs hsegs
  have hrange : ((if (states.map (fun st => st.t)).getLast?.getD 0
        < (states.map (fun st => st.t)).head?.getD 0
      then (states.map (fun st => st.t)).reverse
      else states.map (fun st => st.t))).length = states.length := by
    rw [hts]
    simp [horlen]
  rw [List.length_range, hrange] at hl
  have hk' : k < (List.range ((if (states.map (fun st => st.t)).getLast?.getD 0
        < (states.map (fun st => st.t)).head?.getD 0
      then (states.map (fun st => st.t)).reverse
      else states.map (fun st => st.t)).length - 1)).length := by
    rw [List.length_range, hrange]
    omega
  have hbody := hg k hk'
  rw [List.getElem_range] at hbody
  simp only [hts, hys, hfs] at hbody
  have hko : k < (oriented states).length := by omega
  have hk1o : k + 1 < (oriented states).length := by omega
  have htk := map_t_getD (oriented states) k hko
  have htk1 := map_t_getD (oriented states) (k + 1) hk1o
  have hyk := map_y_getD (oriented states) k hko
  have hyk1 := map_y_getD (oriented states) (k + 1) hk1o
  have hfk := map_f_getD (oriented states) k hko
  have hfk1 := map_f_getD (oriented states) (k + 1) hk1o
  cases useM with
  | false =>
      rw [if_neg (by simp : ¬ (false = true))] at hbody
      have hnone : (if (states.map (fun st => st.t)).getLast?.getD 0
            < (states.map (fun st => st.t)).head?.getD 0
          then (none : Option (List (Option (Vec n)))).map (fun l => l.reverse)
          else none) = none := by
        split <;> rfl
      rw [hnone] at hbody
      simp only [] at hbody
      have hseg : segs.getD k dfltSeg =
          ⟨((oriented states).map (fun st => st.t)).getD k 0,
           ((oriented states).map (fun st => st.t)).getD (k + 1) 0,
           cubicCoeffs
             (((oriented states).map (fun st => st.t)).getD (k + 1) 0
               - ((oriented states).map (fun st => st.t)).getD k 0)
             (((oriented states).map (fun st => st.y)).getD k zVec)
             (((oriented states).map (fun st => st.y)).getD (k + 1) zVec)
             (((oriented states).map (fun st => st.f)).getD k zVec)
             (((oriented states).map (fun st => st.f)).getD (k + 1) zVec)⟩ := by
        rw [List.getD_eq_getElem?_getD, hbody]
        rfl
      rw [hseg, htk, htk1, hyk, hyk1, hfk, hfk1]
      exact ⟨hl, rfl, rfl, Or.inl rfl⟩
  | true =>
      rw [if_pos rfl] at hbody
      have hpush : (if (states.map (fun st => st.t)).getLast?.getD 0
            < (states.map (fun st => st.t)).head?.getD 0
          then (some (states.tail.map (fun st => st.ym))).map (fun l => l.reverse)
          else some (states.tail.map (fun st => st.ym))) =
          some (if (states.map (fun st => st.t)).getLast?.getD 0
              < (states.map (fun st => st.t)).head?.getD 0
            then (states.tail.map (fun st => st.ym)).reverse
            else states.tail.map (fun st => st.ym)) := by
        split <;> rfl
      rw [hpush] at hbody
      simp only [] at hbody
      have hsome : segs[k]?.isSome := by
        rw [List.getElem?_eq_getElem (by omega : k < segs.length)]
        rfl
      cases hyl : (if (states.map (fun st => st.t)).getLast?.getD 0
            < (states.map (fun st => st.t)).head?.getD 0
          then (states.tail.map (fun st => st.ym)).reverse
          else states.tail.map (fun st => st.ym)).getD k none with
      | none =>
          rw [hyl] at hbody
          rw [hbody] at hsome
          simp at hsome
      | some w =>
          rw [hyl] at hbody
          have hseg : segs.getD k dfltSeg =
              ⟨((oriented states).map (fun st => st.t)).getD k 0,
               ((oriented states).map (fun st => st.t)).getD (k + 1) 0,
               quarticCoeffs
                 (((oriented states).map (fun st => st.t)).getD (k + 1) 0
                   - ((oriented states).map (fun st => st.t)).getD k 0)
                 (((oriented states).map (fun st => st.y)).getD k zVec)
                 (((oriented states).map (fun st => st.y)).getD (k + 1) zVec)
                 w
                 (((oriented states).map (fun st => st.f)).getD k zVec)
                 (((oriented states).map (fun st => st.f)).getD (k + 1) zVec)⟩ := by
            rw [List.getD_eq_getElem?_getD, hbody]
            rfl
          rw [hseg, htk, htk1, hyk, hyk1, hfk, hfk1]
          exact ⟨hl, rfl, rfl, Or.inr ⟨w, rfl⟩⟩

/-! ### Endpoint algebra of the dense-output coefficient formulas -/

theorem cubic_eval_zero {n : ℕ} (h : ℚ) (y0 y1 f0 f1 : Vec n) (i : Fin n) :
    polyEval (cubicCoeffs h y0 y1 f0 f1) 0 i = y0 i := by
  simp [polyEval, cubicCoeffs]

theorem cubic_eval_h {n : ℕ} {h : ℚ} (hne : h ≠ 0) (y0 y1 f0 f1 : Vec n)
    (i : Fin n) : polyEval (cubicCoeffs h y0 y1 f0 f1) h i = y1 i := by
  simp only [polyEval, cubicCoeffs, List.foldl_cons, List.foldl_nil]
  field_simp
  ring

theorem cubic_deriv_zero {n : ℕ} (h : ℚ) (y0 y1 f0 f1 : Vec n) (i : Fin n) :
    polyEval (polyDeriv (cubicCoeffs h y0 y1 f0 f1)) 0 i = f0 i := by
  simp [polyEval, polyDeriv, cubicCoeffs]

theorem cubic_deriv_h {n : ℕ} {h : ℚ} (hne : h ≠ 0) (y0 y1 f0 f1 : Vec n)
    (i : Fin n) :
    polyEval (polyDeriv (cubicCoeffs h y0 y1 f0 f1)) h i = f1 i := by
  simp only [polyEval, polyDeriv, cubicCoeffs, List.foldl_cons, List.foldl_nil,
    List.length_cons, List.length_nil]
  field_simp
  ring

theorem quartic_eval_zero {n : ℕ} (h : ℚ) (y0 y1 w f0 f1 : Vec n) (i : Fin n) :
    polyEval (quarticCoeffs h y0 y1 w f0 f1) 0 i = y0 i := by
  simp [polyEval, quarticCoeffs]

theorem quartic_eval_h {n : ℕ} {h : ℚ} (hne : h ≠ 0) (y0 y1 w f0 f1 : Vec n)
    (i : Fin n) : polyEval (quarticCoeffs h y0 y1 w f0 f1) h i = y1 i := by
  simp only [polyEval, quarticCoeffs, List.foldl_cons, List.foldl_nil]
  field_simp
  ring

theorem quartic_deriv_zero {n : ℕ} (h : ℚ) (y0 y1 w f0 f1 : Vec n) (i : Fin n) :
    polyEval (polyDeriv (quarticCoeffs h y0 y1 w f0 f1)) 0 i = f0 i := by
  simp [polyEval, polyDeriv, quarticCoeffs]

theorem quartic_deriv_h {n : ℕ} {h : ℚ} (hne : h ≠ 0) (y0 y1 w f0 f1 : Vec n)
    (i : Fin n) :
    polyEval (polyDeriv (quarticCoeffs h y0 y1 w f0 f1)) h i = f1 i := by
  simp only [polyEval, polyDeriv, quarticCoeffs, List.foldl_cons,
    List.foldl_nil, List.length_cons, List.length_nil]
  field_simp
  ring

/-- Adjacent states of the time-ordered sequence have distinct times
whenever the input sequence is strictly monotone in either direction. -/
theorem oriented_adj_t_ne {n : ℕ} (states : List (OdeState n))
    (hmono : List.Chain' (fun a b => a.t < b.t) states
      ∨ List.Chain' (fun a b => b.t < a.t) states)
    (k : ℕ) (hk : k + 1 < states.length) :
    ((oriented states).getD k dfltState).t
      ≠ ((oriented states).getD (k + 1) dfltState).t := by
  have horlen : (oriented states).length = states.length := by
    rw [oriented]
    split <;> simp
  rw [← map_t_getD (oriented states) k (by omega),
    ← map_t_getD (oriented states) (k + 1) (by omega)]
  have hPts : (states.map (fun st => st.t)).Pairwise (fun a b => a < b)
      ∨ (states.map (fun st => st.t)).Pairwise (fun a b => b < a) := by
    rcases hmono with hc | hc
    · exact Or.inl (List.chain'_iff_pairwise.mp (List.chain'_map_of_chain'
        (fun st : OdeState n => st.t) (fun _ _ hab => hab) hc))
    · exact Or.inr (List.chain'_iff_pairwise.mp (List.chain'_map_of_chain'
        (fun st : OdeState n => st.t) (fun _ _ hab => hab) hc))
  have hP : ((oriented states).map (fun st => st.t)).Pairwise (fun a b => a < b)
      ∨ ((oriented states).map (fun st => st.t)).Pairwise (fun a b => b < a) := by
    rw [oriented]
    split
    · rw [show states.reverse.map (fun st => st.t)
          = (states.map (fun st => st.t)).reverse from (List.map_reverse _ _)]
      rcases hPts with hP | hP
      · exact Or.inr (List.pairwise_reverse.mpr hP)
      · exact Or.inl (List.pairwise_reverse.mpr hP)
    · exact hPts
  exact pairwise_getD_ne _ hP k (by simp [horlen]; omega)

/-- **C3.** For every ordered (strictly monotone in either time direction)
sequence of at least two accepted states, every segment of the
dense-output interpolant built by `spline` reproduces, at its two
endpoint times, the stored `y` values of the two states it spans, and its
derivative reproduces their stored `f` values — exactly, in exact
arithmetic, for both the cubic (no midpoint) and the quartic (midpoint)
coefficient formulas.  Since every state of the sequence is an endpoint of
some segment, the interpolant agrees with every state's stored `y` and
`f` at that state's own `t`. -/
theorem spline_interpolates_endpoints {n : ℕ} (useM : Bool)
    (states : List (OdeState n)) (segs : List (SplineSeg n)) (k : ℕ)
    (i : Fin n)
    (hmono : List.Chain' (fun a b => a.t < b.t) states
      ∨ List.Chain' (fun a b => b.t < a.t) states)
    (hsegs : spline useM states = some segs)
    (hk : k + 1 < states.length) :
    (segs.getD k dfltSeg).t0 = ((oriented states).getD k dfltState).t
    ∧ (segs.getD k dfltSeg).t1 = ((oriented states).getD (k + 1) dfltState).t
    ∧ polyEval (segs.getD k dfltSeg).coeffs 0 i
        = ((oriented states).getD k dfltState).y i
    ∧ polyEval (segs.getD k dfltSeg).coeffs
        (((oriented states).getD (k + 1) dfltState).t
          - ((oriented states).getD k dfltState).t) i
        = ((oriented states).getD (k + 1) dfltState).y i
    ∧ polyEval (polyDeriv (segs.getD k dfltSeg).coeffs) 0 i
        = ((oriented states).getD k dfltState).f i
    ∧ polyEval (polyDeriv (segs.getD k dfltSeg).coeffs)
        (((oriented states).getD (k + 1) dfltState).t
          - ((oriented states).getD k dfltState).t) i
        = ((oriented states).getD (k + 1) dfltState).f i := by
  obtain ⟨hl, ht0, ht1, hco⟩ := spline_seg_charac useM states segs k hsegs hk
  have htne := oriented_adj_t_ne states hmono k hk
  have hdne : ((oriented states).getD (k + 1) dfltState).t
      - ((oriented states).getD k dfltState).t ≠ 0 :=
    sub_ne_zero.mpr (Ne.symm htne)
  rcases hco with hco | ⟨w, hco⟩
  · exact ⟨ht0, ht1,
      by rw [hco]; exact cubic_eval_zero _ _ _ _ _ i,
      by rw [hco]; exact cubic_eval_h hdne _ _ _ _ i,
      by rw [hco]; exact cubic_deriv_zero _ _ _ _ _ i,
      by rw [hco]; exact cubic_deriv_h hdne _ _ _ _ i⟩
  · exact ⟨ht0, ht1,
      by rw [hco]; exact quartic_eval_zero _ _ _ _ _ _ i,
      by rw [hco]; exact quartic_eval_h hdne _ _ _ _ _ i,
      by rw [hco]; exact quartic_deriv_zero _ _ _ _ _ _ i,
      by rw [hco]; exact quartic_deriv_h hdne _ _ _ _ _ i⟩

/-- Witness for C3: the two-state sequence `[stA, stB]` on the line
`y = t` produces the single cubic segment `segAB`, whose endpoint values
and derivatives reproduce the stored data. -/
theorem spline_interpolates_endpoints_witness :
    (List.Chain' (fun a b => a.t < b.t) [stA, stB]
      ∨ List.Chain' (fun (a b : OdeState 1) => b.t < a.t) [stA, stB])
    ∧ spline false [stA, stB] = some [segAB]
    ∧ 0 + 1 < ([stA, stB] : List (OdeState 1)).length
    ∧ (([segAB].getD 0 dfltSeg).t0 = ((oriented [stA, stB]).getD 0 dfltState).t
      ∧ ([segAB].getD 0 dfltSeg).t1 = ((oriented [stA, stB]).getD 1 dfltState).t
      ∧ polyEval ([segAB].getD 0 dfltSeg).coeffs 0 0
          = ((oriented [stA, stB]).getD 0 dfltState).y 0
      ∧ polyEval ([segAB].getD 0 dfltSeg).coeffs
          (((oriented [stA, stB]).getD 1 dfltState).t
            - ((oriented [stA, stB]).getD 0 dfltState).t) 0
          = ((oriented [stA, stB]).getD 1 dfltState).y 0
      ∧ polyEval (polyDeriv ([segAB].getD 0 dfltSeg).coeffs) 0 0
          = ((oriented [stA, stB]).getD 0 dfltState).f 0
      ∧ polyEval (polyDeriv ([segAB].getD 0 dfltSeg).coeffs)
          (((oriented [stA, stB]).getD 1 dfltState).t
            - ((oriented [stA, stB]).getD 0 dfltState).t) 0
          = ((oriented [stA, stB]).getD 1 dfltState).f 0) := by
  have hmono : List.Chain' (fun a b => a.t < b.t) [stA, stB]
      ∨ List.Chain' (fun (a b : OdeState 1) => b.t < a.t) [stA, stB] := by
    left
    norm_num [List.chain'_cons, List.chain'_singleton, stA, stB]
  have hsegs : spline false [stA, stB] = some [segAB] := by
    norm_num [spline, cubicCoeffs, stA, stB, segAB, zVec, dfltSeg,
      List.range_succ, List.mapM.loop, Option.bind, funext_iff,
      Fin.forall_fin_one]
  have hk : 0 + 1 < ([stA, stB] : List (OdeState 1)).length := by norm_num
  exact ⟨hmono, hsegs, hk,
    spline_interpolates_endpoints false [stA, stB] [segAB] 0 0 hmono hsegs hk⟩

/-! ### Reversal behaviour of the dense-output builder -/

theorem orient_map_t {n : ℕ} (states : List (OdeState n)) :
    (if (states.map (fun st => st.t)).getLast?.getD 0
        < (states.map (fun st => st.t)).head?.getD 0
      then (states.map (fun st => st.t)).reverse
      else states.map (fun st => st.t)) =
    (oriented states).map (fun st => st.t) := by
  rw [oriented]
  split
  · exact (List.map_reverse _ _).symm
  · rfl

theorem orient_map_y {n : ℕ} (states : List (OdeState n)) :
    (if (states.map (fun st => st.t)).getLast?.getD 0
        < (states.map (fun st => st.t)).head?.getD 0
      then (states.map (fun st => st.y)).reverse
      else states.map (fun st => st.y)) =
    (oriented states).map (fun st => st.y) := by
  rw [oriented]
  split
  · exact (List.map_reverse _ _).symm
  · rfl

theorem orient_map_f {n : ℕ} (states : List (OdeState n)) :
    (if (states.map (fun st => st.t)).getLast?.getD 0
        < (states.map (fun st => st.t)).head?.getD 0
      then (states.map (fun st => st.f)).reverse
      else states.map (fun st => st.f)) =
    (oriented states).map (fun st => st.f) := by
  rw [oriented]
  split
  · exact (List.map_reverse _ _).symm
  · rfl

theorem mono_pairwise_t {n : ℕ} (states : List (OdeState n))
    (hmono : List.Chain' (fun a b => a.t < b.t) states
      ∨ List.Chain' (fun a b => b.t < a.t) states) :
    (states.map (fun st => st.t)).Pairwise (fun a b => a < b)
    ∨ (states.map (fun st => st.t)).Pairwise (fun a b => b < a) := by
  rcases hmono with hc | hc
  · exact Or.inl (List.chain'_iff_pairwise.mp (List.chain'_map_of_chain'
      (fun st : OdeState n => st.t) (fun _ _ hab => hab) hc))
  · exact Or.inr (List.chain'_iff_pairwise.mp (List.chain'_map_of_chain'
      (fun st : OdeState n => st.t) (fun _ _ hab => hab) hc))

theorem ends_ne_of_mono {n : ℕ} (states : List (OdeState n))
    (hlen : 2 ≤ states.length)
    (hmono : List.Chain' (fun a b => a.t < b.t) states
      ∨ List.Chain' (fun a b => b.t < a.t) states) :
    (states.map (fun st => st.t)).getLast?.getD 0
      ≠ (states.map (fun st => st.t)).head?.getD 0 := by
  have hml : (states.map (fun st => st.t)).length = states.length := by simp
  have h0 : 0 < (states.map (fun st => st.t)).length := by omega
  have hlast : (states.map (fun st => st.t)).length - 1
      < (states.map (fun st => st.t)).length := by omega
  rw [List.getLast?_eq_getElem?, List.head?_eq_getElem?,
    List.getElem?_eq_getElem hlast, List.getElem?_eq_getElem h0,
    Option.getD_some, Option.getD_some]
  have h01 : 0 < (states.map (fun st => st.t)).length - 1 := by omega
  rcases mono_pairwise_t states hmono with hP | hP
  · exact ne_of_gt (List.pairwise_iff_getElem.mp hP 0 _ h0 hlast h01)
  · exact ne_of_lt (List.pairwise_iff_getElem.mp hP 0 _ h0 hlast h01)

/-- Reversing the state sequence flips the reversal flag inside `spline`,
so the time-ordered sequence is unchanged (whenever the two end times
differ). -/
theorem oriented_reverse {n : ℕ} (states : List (OdeState n))
    (hne : (states.map (fun st => st.t)).getLast?.getD 0
      ≠ (states.map (fun st => st.t)).head?.getD 0) :
    oriented states.reverse = oriented states := by
  rw [oriented, oriented]
  rw [show states.reverse.map (fun st => st.t)
      = (states.map (fun st => st.t)).reverse from List.map_reverse _ _]
  rw [List.getLast?_reverse, List.head?_reverse]
  rcases lt_trichotomy ((states.map (fun st => st.t)).head?.getD 0)
      ((states.map (fun st => st.t)).getLast?.getD 0) with hlt | heq | hgt
  · rw [if_pos hlt, if_neg (not_lt.mpr (le_of_lt hlt)), List.reverse_reverse]
  · exact absurd heq.symm hne
  · rw [if_neg (not_lt.mpr (le_of_lt hgt)), if_pos hgt]

/-- **C4, counterexample.**  For midpoint-carrying state sequences the
claim is false: `spline` reads the midpoint column from `states[1:]`
before re-sorting by time, so reversing the input pairs each segment with
the other endpoint's `ym`.  With `ym` values `5, 1, 2` attached to the
states at `t = 0, 1, 2`, the forward build uses `ym = 1` on `[0, 1]`
(leading quartic coefficient `16`) while the reversed build uses `ym = 5`
(leading coefficient `80`). -/
theorem spline_reverse_midpoint_counterexample :
    spline true ([mp0, mp1, mp2] : List (OdeState 1)).reverse
      ≠ spline true [mp0, mp1, mp2] := by
  have hrev : ([mp0, mp1, mp2] : List (OdeState 1)).reverse
      = [mp2, mp1, mp0] := rfl
  rw [hrev]
  intro hcontra
  have hval := congrArg
    (fun o => (((o.getD []).getD 0 dfltSeg).coeffs.getD 0 zVec) 0) hcontra
  norm_num [spline, quarticCoeffs, mp0, mp1, mp2, zVec, dfltSeg,
    List.range_succ, List.mapM.loop, Option.bind, Option.map, funext_iff,
    Fin.forall_fin_one] at hval

/-- **C4, amended.**  For every ordered sequence of at least two states
WITHOUT midpoint values (the cubic scheme, `M is None`), building the
dense output from the reversed sequence produces an interpolant identical
to the one built from the forward-ordered sequence.  For midpoint-carrying
sequences (the 5th-order scheme) reversal re-pairs each segment with the
other endpoint's `ym`, so the two interpolants differ in general (see the
counterexample). -/
theorem spline_reverse_invariant_no_midpoint {n : ℕ}
    (states : List (OdeState n))
    (hlen : 2 ≤ states.length)
    (hmono : List.Chain' (fun a b => a.t < b.t) states
      ∨ List.Chain' (fun a b => b.t < a.t) states) :
    spline false states.reverse = spline false states := by
  have hne := ends_ne_of_mono states hlen hmono
  have hA : ¬ (states.reverse.length ≤ 1) := by
    simp only [List.length_reverse]
    omega
  have hB : ¬ (states.length ≤ 1) := by omega
  rw [spline, spline]
  rw [if_neg hA, if_neg hB]
  simp only [orient_map_t, orient_map_y, orient_map_f,
    if_neg (show ¬ (false = true) by simp), Option.map_none', ite_self]
  rw [oriented_reverse states hne]

/-- Witness for the amended C4: the reversed two-state sequence
`[stB, stA]` builds the same cubic interpolant as `[stA, stB]`. -/
theorem spline_reverse_invariant_no_midpoint_witness :
    2 ≤ ([stA, stB] : List (OdeState 1)).length
    ∧ (List.Chain' (fun a b => a.t < b.t) [stA, stB]
        ∨ List.Chain' (fun (a b : OdeState 1) => b.t < a.t) [stA, stB])
    ∧ spline false ([stA, stB] : List (OdeState 1)).reverse
        = spline false [stA, stB] := by
  have hlen : 2 ≤ ([stA, stB] : List (OdeState 1)).length := by norm_num
  have hmono : List.Chain' (fun a b => a.t < b.t) [stA, stB]
      ∨ List.Chain' (fun (a b : OdeState 1) => b.t < a.t) [stA, stB] := by
    left
    norm_num [List.chain'_cons, List.chain'_singleton, stA, stB]
  exact ⟨hlen, hmono,
    spline_reverse_invariant_no_midpoint [stA, stB] hlen hmono⟩

/-- Witness for C1: the Bogacki-Shampine tableau applied to the zero
right-hand side at `t = 0`, `y = f = 0`, `h = 1`, stage `s = 0`,
component `i = 0`. -/
theorem rk_step_matches_tableau_recursion_witness :
    A23.length = C23.length
    ∧ B23.length = A23.length + 1
    ∧ E23.length = B23.length + 1
    ∧ 0 < A23.length
    ∧ ((rk_step zeroRHS 0 zVec zVec 1 A23 B23 C23 E23).K.length = B23.length + 1
      ∧ (rk_step zeroRHS 0 zVec zVec 1 A23 B23 C23 E23).K[0]? = some zVec
      ∧ (rk_step zeroRHS 0 zVec zVec 1 A23 B23 C23 E23).K[0 + 1]? =
          some (zeroRHS (0 + C23.getD 0 0 * 1)
            (fun j => zVec j
              + 1 * dotKT ((rk_step zeroRHS 0 zVec zVec 1 A23 B23 C23 E23).K.take (0 + 1))
                  (A23.getD 0 []) j))
      ∧ (rk_step zeroRHS 0 zVec zVec 1 A23 B23 C23 E23).y_new (0 : Fin 1) =
          zVec (0 : Fin 1) + 1 * dotKT ((rk_step zeroRHS 0 zVec zVec 1 A23 B23 C23 E23).K.take B23.length) B23 (0 : Fin 1)
      ∧ (rk_step zeroRHS 0 zVec zVec 1 A23 B23 C23 E23).f_new =
          zeroRHS (0 + 1) (rk_step zeroRHS 0 zVec zVec 1 A23 B23 C23 E23).y_new
      ∧ (rk_step zeroRHS 0 zVec zVec 1 A23 B23 C23 E23).K.getLast? =
          some (rk_step zeroRHS 0 zVec zVec 1 A23 B23 C23 E23).f_new
      ∧ (rk_step zeroRHS 0 zVec zVec 1 A23 B23 C23 E23).error (0 : Fin 1) =
          1 * dotKT (rk_step zeroRHS 0 zVec zVec 1 A23 B23 C23 E23).K E23 (0 : Fin 1)) := by
  have h1 : A23.length = C23.length := rfl
  have h2 : B23.length = A23.length + 1 := rfl
  have h3 : E23.length = B23.length + 1 := rfl
  have h4 : 0 < A23.length := by norm_num [A23]
  exact ⟨h1, h2, h3, h4,
    rk_step_matches_tableau_recursion zeroRHS 0 zVec zVec 1 A23 B23 C23 E23
      h1 h2 h3 0 h4 (0 : Fin 1)⟩

end ScipyOde
